import Mathlib

/-!
Verification of the async QPS throttle (`src/async_throttle.ts`).

The engine is single-threaded and event-driven: all state mutation happens
synchronously inside `processWork` (purge, admit, timer reconcile), which is
triggered by a submission (`callThrottled`), by a work item's completion
callback, or by the expiration-timer callback.  We embed the engine state as a
record and each trigger as an explicit event; the circular doubly-linked
`workList` with its `readyWorkPredecessor` cursor is embedded as the pair of
lists `tracked` (items before the cursor, i.e. already started and still
QPS-tracked, oldest first) and `queued` (items after the cursor, submission
order).  Times are naturals in milliseconds; the host clock and timer are the
`now` field, `tick` events and a `timerFire` event.  Ghost fields (`startLog`,
`outstanding`, `nextId`, `drainFired`) record the observable history used to
state the properties; they are not read by the embedded engine code.
-/

namespace AsyncThrottleModel

/-- JavaScript Number.MAX_SAFE_INTEGER, which the constructor substitutes for
an absent or zero limit option. -/
def MAX_SAFE_INTEGER : Nat := 9007199254740991

/-- Options record (`AsyncThrottleOptions`): each limit is optional; `none`
models an omitted field and `some 0` an explicit zero. -/
structure AsyncThrottleOptions where
  maxOutstanding : Option Nat
  maxQps : Option Nat
deriving DecidableEq

/-- Effective limit computed by the constructor.  JavaScript
`options.maxOutstanding || Number.MAX_SAFE_INTEGER` treats both `undefined`
and `0` as falsy, so both fall back to `MAX_SAFE_INTEGER`. -/
def limitOrDefault : Option Nat → Nat
  | none => MAX_SAFE_INTEGER
  | some v => if v = 0 then MAX_SAFE_INTEGER else v

/-- Engine state of `AsyncThrottle`.

`tracked` holds `(id, expirationTime)` for every work item that has been
started and not yet unlinked by `purgeExpiredWork`; list order is list
position order, i.e. start order.  `queued` holds the ids of items not yet
started, in submission order.  `outstanding` is the ghost list of ids started
but not yet completed.  `startLog` is the ghost history of starts:
`(id, startedAt, expirationTime)` in chronological order.  `drainFired` is a
ghost flag: whether the drain signal (`onLastWorkItemDrained`) fired during
the last processed event. -/
structure ThrottleState where
  maxOutstanding : Nat
  maxQps : Nat
  now : Nat
  tracked : List (Nat × Nat)
  queued : List Nat
  outstanding : List Nat
  outstandingCount : Nat
  qpsCount : Nat
  expiringWorkTimer : Option Nat
  drainActive : Bool
  nextId : Nat
  startLog : List (Nat × Nat × Nat)
  drainFired : Bool
deriving DecidableEq

/-- Loop of `purgeExpiredWork`: drop work items from the head of the tracked
zone while the first one is expired (`isExpired` is
`expirationTime && expirationDelay() <= 0`, i.e. `exp ≠ 0 ∧ exp ≤ now`). -/
def purgeList (now : Nat) : List (Nat × Nat) → List (Nat × Nat)
  | [] => []
  | (id, exp) :: rest =>
    if exp ≠ 0 ∧ exp ≤ now then purgeList now rest else (id, exp) :: rest

/-- `purgeExpiredWork`: remove all expired work items from the list and
decrement `qpsCount` once per removed item. -/
def purgeExpiredWork (s : ThrottleState) : ThrottleState :=
  { s with tracked := purgeList s.now s.tracked,
           qpsCount := s.qpsCount - (s.tracked.length - (purgeList s.now s.tracked).length) }

/-- One iteration body of the `executeReadyWork` loop: advance the cursor past
the item (it joins the tracked zone), bump both counters, and execute it,
which stamps `expirationTime = Date.now() + 1000`.  Ghost fields record the
start. -/
def startWorkItem (id : Nat) (s : ThrottleState) : ThrottleState :=
  { s with tracked := s.tracked ++ [(id, s.now + 1000)],
           outstanding := s.outstanding ++ [id],
           outstandingCount := s.outstandingCount + 1,
           qpsCount := s.qpsCount + 1,
           startLog := s.startLog ++ [(id, s.now, s.now + 1000)] }

/-- Loop of `executeReadyWork` over the ready (queued) items: while there is
ready work and `canExecuteWork` (`¬atMaxQps ∧ ¬atMaxOutstanding`), start the
oldest ready item.  The first argument is the current `queued` list. -/
def executeReadyWorkAux : List Nat → ThrottleState → ThrottleState
  | [], s => s
  | id :: rest, s =>
    if s.qpsCount < s.maxQps ∧ s.outstandingCount < s.maxOutstanding then
      executeReadyWorkAux rest (startWorkItem id { s with queued := rest })
    else s

/-- `executeReadyWork`: execute all ready work items until/unless they must be
throttled. -/
def executeReadyWork (s : ThrottleState) : ThrottleState :=
  executeReadyWorkAux s.queued s

/-- `this.first().expirationDelay()`: remaining delay of the head of the work
list (the sentinel and queued items have `expirationTime = 0`, giving a delay
of `max 0 (0 - now) = 0`). -/
def firstExpirationDelay (s : ThrottleState) : Nat :=
  match s.tracked with
  | [] => 0
  | (_, exp) :: _ => exp - s.now

/-- `updateTimer`: a timer should be set iff work is waiting due to QPS
throttling only (`hasReadyWork ∧ atMaxQps ∧ ¬atMaxOutstanding`).  When
setting, the timer is armed with the remaining delay of the oldest tracked
item; an already-armed timer is left alone; otherwise any timer is
cancelled.  We store the absolute fire time `now + delay`. -/
def updateTimer (s : ThrottleState) : ThrottleState :=
  if s.queued ≠ [] ∧ s.maxQps ≤ s.qpsCount ∧ s.outstandingCount < s.maxOutstanding then
    match s.expiringWorkTimer with
    | some _ => s
    | none => { s with expiringWorkTimer := some (s.now + firstExpirationDelay s) }
  else
    { s with expiringWorkTimer := none }

/-- `processWork`: purge expired work, execute ready work, reconcile the
timer. -/
def processWork (s : ThrottleState) : ThrottleState :=
  updateTimer (executeReadyWork (purgeExpiredWork s))

/-- `onWorkItemEnqueued`: ensure the `whenQuiescent` promise exists (modelled
by the `drainActive` flag; creating it when already present is a no-op, so the
flag is simply set). -/
def onWorkItemEnqueued (s : ThrottleState) : ThrottleState :=
  { s with drainActive := true }

/-- State effect of `callThrottled`: append a new `Work` record at the tail of
the list, mark the throttle non-idle, and run one admission pass. -/
def callThrottled (s : ThrottleState) : ThrottleState :=
  processWork (onWorkItemEnqueued
    { s with queued := s.queued ++ [s.nextId], nextId := s.nextId + 1 })

/-- State reached by the body of the completion callback installed in
`executeReadyWork` (before its optional trailing `processWork`): note
`shouldTriggerWork` is read before the decrement, the drain signal fires when
the decrement reaches zero with no ready work, and the completed item is not
unlinked (it stays QPS-tracked). -/
def cleanupState (id : Nat) (s : ThrottleState) : ThrottleState :=
  { s with outstanding := s.outstanding.erase id,
           outstandingCount := s.outstandingCount - 1,
           drainActive := if s.outstandingCount - 1 = 0 ∧ s.queued = [] then false else s.drainActive,
           drainFired := decide (s.outstandingCount - 1 = 0 ∧ s.queued = []) }

/-- Completion callback of a started work item (the closure passed to
`work.execute`): runs only once for an item that is started and not yet
completed; re-invokes `processWork` iff the throttle was at the outstanding
cap just before the decrement. -/
def workCleanup (id : Nat) (s : ThrottleState) : ThrottleState :=
  if id ∈ s.outstanding then
    if s.maxOutstanding ≤ s.outstandingCount then processWork (cleanupState id s)
    else cleanupState id s
  else s

/-- Callback of the expiring-work timer: clear the timer handle and run a new
admission pass.  The host fires it only when armed and its fire time has been
reached. -/
def timerFired (s : ThrottleState) : ThrottleState :=
  match s.expiringWorkTimer with
  | some f => if f ≤ s.now then processWork { s with expiringWorkTimer := none } else s
  | none => s

/-- Constructor of `AsyncThrottle`, with an arbitrary initial clock value. -/
def initThrottle (opts : AsyncThrottleOptions) (t0 : Nat) : ThrottleState :=
  { maxOutstanding := limitOrDefault opts.maxOutstanding
    maxQps := limitOrDefault opts.maxQps
    now := t0
    tracked := []
    queued := []
    outstanding := []
    outstandingCount := 0
    qpsCount := 0
    expiringWorkTimer := none
    drainActive := false
    nextId := 0
    startLog := []
    drainFired := false }

/-- Events that can drive the throttle: a submission, the completion of a
started work item, the timer callback, and the passage of time. -/
inductive Event where
  | submit
  | complete (id : Nat)
  | timerFire
  | tick (d : Nat)
deriving DecidableEq

/-- One step of the event-driven semantics.  The ghost `drainFired` flag is
reset at the start of every event so that afterwards it reports whether the
drain signal fired during this event. -/
def step : Event → ThrottleState → ThrottleState
  | Event.submit, s => callThrottled { s with drainFired := false }
  | Event.complete id, s => workCleanup id { s with drainFired := false }
  | Event.timerFire, s => timerFired { s with drainFired := false }
  | Event.tick d, s => { s with now := s.now + d, drainFired := false }

/-- States reachable from a freshly constructed throttle. -/
inductive Reachable (opts : AsyncThrottleOptions) : ThrottleState → Prop where
  | init (t0 : Nat) : Reachable opts (initThrottle opts t0)
  | step (e : Event) (s : ThrottleState) (h : Reachable opts s) : Reachable opts (step e s)

/-- Result of `whenDrained`: either the already-resolved `Promise.resolve()`
or the pending `whenQuiescent` promise. -/
inductive DrainResult where
  | alreadyResolved
  | pendingQuiescent
deriving DecidableEq

/-- `whenDrained`: return `whenQuiescent` if it exists, else an
already-resolved promise. -/
def whenDrained (s : ThrottleState) : DrainResult :=
  if s.drainActive then DrainResult.pendingQuiescent else DrainResult.alreadyResolved

/-- Ghost observation for the QPS property: the logged starts that happened
within the trailing 1000ms window ending at time `t`, i.e. with
`startedAt ≤ t < startedAt + 1000`. -/
def startedInWindow (s : ThrottleState) (t : Nat) : List (Nat × Nat × Nat) :=
  s.startLog.filter fun e => decide (e.2.1 ≤ t ∧ t < e.2.1 + 1000)

/-- Inductive invariant of the engine, preserved by every event.  It ties the
counters to the ghost lists, bounds them by the limits, orders starts and
queued items by submission id, and localizes every unexpired logged start in
the tracked zone. -/
structure Inv (s : ThrottleState) : Prop where
  qps_eq : s.qpsCount = s.tracked.length
  out_eq : s.outstandingCount = s.outstanding.length
  out_le : s.outstandingCount ≤ s.maxOutstanding
  qps_le : s.qpsCount ≤ s.maxQps
  log_exp : ∀ e ∈ s.startLog, e.2.2 = e.2.1 + 1000
  log_sorted : List.Pairwise (fun a b => a < b) (s.startLog.map (fun e => e.1))
  queued_sorted : List.Pairwise (fun a b => a < b) s.queued
  log_lt_queued : ∀ e ∈ s.startLog, ∀ j ∈ s.queued, e.1 < j
  queued_lt_next : ∀ j ∈ s.queued, j < s.nextId
  log_lt_next : ∀ e ∈ s.startLog, e.1 < s.nextId
  unexpired_tracked : ∀ e ∈ s.startLog, s.now < e.2.2 → (e.1, e.2.2) ∈ s.tracked
  tracked_sub_log : ∀ p ∈ s.tracked, (p.1, p.2 - 1000, p.2) ∈ s.startLog
  outstanding_sub_log : ∀ i ∈ s.outstanding, ∃ e ∈ s.startLog, e.1 = i
  outstanding_nodup : s.outstanding.Nodup
  drain_iff : s.drainActive = true ↔ (s.queued ≠ [] ∨ s.outstanding ≠ [])
  window_le : ∀ t, (startedInWindow s t).length ≤ s.maxQps

/-- Outcome of a settled promise. -/
inductive POutcome (α ε : Type) where
  | ok (v : α)
  | err (e : ε)
deriving DecidableEq

/-- Behaviour of one invocation of a caller-supplied work function: either it
throws synchronously, or it returns a promise with the given eventual
outcome. -/
inductive StartResult (α ε : Type) where
  | syncThrow (e : ε)
  | promiseResult (o : POutcome α ε)
deriving DecidableEq

/-- Calls that `Work.execute` makes on its environment: the cleanup callback
and the `resolve`/`reject` of the deferred `whenComplete` promise. -/
inductive ExecCall (α ε : Type) where
  | cleanup
  | resolveCall (v : α)
  | rejectCall (e : ε)
deriving DecidableEq

/-- Promise combinator `.finally(cleanup)` in the chain: runs the callback and
passes the outcome through unchanged. -/
def finallyStage {α ε : Type} (o : POutcome α ε) : List (ExecCall α ε) × POutcome α ε :=
  ([ExecCall.cleanup], o)

/-- Promise combinator `.then(this.resolve)`: a fulfilment calls `resolve`
with the value (the handler returns `undefined`, fulfilling the new promise);
a rejection passes through, there being no rejection handler. -/
def thenResolveStage {α ε : Type} (o : POutcome α ε) : List (ExecCall α ε) × POutcome Unit ε :=
  match o with
  | POutcome.ok v => ([ExecCall.resolveCall v], POutcome.ok ())
  | POutcome.err e => ([], POutcome.err e)

/-- Promise combinator `.catch(this.reject)`: a rejection calls `reject` with
the reason; a fulfilment passes through. -/
def catchRejectStage {α ε : Type} (o : POutcome Unit ε) : List (ExecCall α ε) × POutcome Unit ε :=
  match o with
  | POutcome.ok v => ([], POutcome.ok v)
  | POutcome.err e => ([ExecCall.rejectCall e], POutcome.ok ())

/-- The calls made by `Work.execute` for one invocation of `startWork`: the
chain `startWork().finally(cleanup).then(this.resolve).catch(this.reject)`
for a returned promise, or `cleanup(); this.reject(e)` in the `catch` block
for a synchronous throw. -/
def executeCalls {α ε : Type} : StartResult α ε → List (ExecCall α ε)
  | StartResult.syncThrow e => [ExecCall.cleanup, ExecCall.rejectCall e]
  | StartResult.promiseResult o =>
    let p1 := finallyStage o
    let p2 := thenResolveStage p1.2
    let p3 := @catchRejectStage α ε p2.2
    p1.1 ++ p2.1 ++ p3.1

/-- Settlements of the `whenComplete` deferred promise among a call list: each
`resolve` fulfils and each `reject` rejects (a promise actually settles with
the first of these only; we prove there is exactly one). -/
def settlementsOf {α ε : Type} : List (ExecCall α ε) → List (POutcome α ε)
  | [] => []
  | ExecCall.cleanup :: rest => settlementsOf rest
  | ExecCall.resolveCall v :: rest => POutcome.ok v :: settlementsOf rest
  | ExecCall.rejectCall e :: rest => POutcome.err e :: settlementsOf rest

/-- Number of cleanup invocations in a call list. -/
def cleanupCount {α ε : Type} (l : List (ExecCall α ε)) : Nat :=
  l.countP (fun c => match c with | ExecCall.cleanup => true | _ => false)

/-- State of the aggregation closure inside `callAllThrottled`: the `rejected`
flag, the `results` array (a slot is `none` until its item fulfils), the
`outstandingResultCount`, and the `resolve`/`reject` calls made on the
aggregate promise, in order. -/
structure AggState (α ε : Type) where
  rejected : Bool
  results : List (Option α)
  outstandingResultCount : Nat
  settlements : List (POutcome (List (Option α)) ε)
deriving DecidableEq

/-- Per-item settlement handler of `callAllThrottled`: a fulfilment stores the
value at its index and, when the count reaches zero, resolves the aggregate
with the results array; a rejection rejects the aggregate if it is the first
error and does not decrement the count. -/
def aggHandle {α ε : Type} (st : AggState α ε) (i : Nat) (o : POutcome α ε) : AggState α ε :=
  match o with
  | POutcome.ok v =>
    let results2 := st.results.set i (some v)
    let c := st.outstandingResultCount - 1
    { rejected := st.rejected
      results := results2
      outstandingResultCount := c
      settlements := st.settlements ++ (if c = 0 then [POutcome.ok results2] else []) }
  | POutcome.err e =>
    if st.rejected then st
    else { st with rejected := true, settlements := st.settlements ++ [POutcome.err e] }

/-- Whether an item settlement is a fulfilment (used to count the settlements
that decrement `outstandingResultCount`). -/
def isOkEvent {α ε : Type} : (Nat × POutcome α ε) → Bool :=
  fun p => match p.2 with
  | POutcome.ok _ => true
  | POutcome.err _ => false

/-- Run of the per-item handlers over a sequence of item settlements given as
`(index, outcome)` pairs in completion order. -/
def aggRun {α ε : Type} (st : AggState α ε) (events : List (Nat × POutcome α ε)) : AggState α ε :=
  events.foldl (fun a p => aggHandle a p.1 p.2) st

/-- Aggregation behaviour of `AsyncThrottle.callAllThrottled` over `n`
submitted functions: the per-item settlements arrive in some completion order
and are folded through the handler, starting from `rejected = false`, an
unfilled results array, and `outstandingResultCount = n`. -/
def callAllThrottled {α ε : Type} (n : Nat) (events : List (Nat × POutcome α ε)) : AggState α ε :=
  aggRun
    { rejected := false
      results := List.replicate n none
      outstandingResultCount := n
      settlements := [] } events

/-!  Helper lemmas: which fields each engine routine leaves unchanged, and how
`purgeList` decomposes the tracked zone. -/

theorem purgeList_split (now : Nat) (l : List (Nat × Nat)) :
    ∃ dropped, l = dropped ++ purgeList now l ∧ ∀ p ∈ dropped, p.2 ≠ 0 ∧ p.2 ≤ now := by
  induction l with
  | nil => exact ⟨[], rfl, by simp⟩
  | cons hd tl ih =>
    obtain ⟨id, exp⟩ := hd
    by_cases hc : exp ≠ 0 ∧ exp ≤ now
    · obtain ⟨d, hd2, hall⟩ := ih
      refine ⟨(id, exp) :: d, ?_, ?_⟩
      · simp only [purgeList, if_pos hc, List.cons_append]
        exact congrArg _ hd2
      · intro p hp
        rcases List.mem_cons.mp hp with rfl | hp2
        · exact hc
        · exact hall p hp2
    · refine ⟨[], ?_, by simp⟩
      simp only [purgeList, if_neg hc, List.nil_append]

theorem purgeList_length_le (now : Nat) (l : List (Nat × Nat)) :
    (purgeList now l).length ≤ l.length := by
  obtain ⟨d, hd, -⟩ := purgeList_split now l
  conv_rhs => rw [hd]
  rw [List.length_append]
  exact Nat.le_add_left _ _

theorem purgeExpiredWork_fields (s : ThrottleState) :
    (purgeExpiredWork s).now = s.now ∧ (purgeExpiredWork s).queued = s.queued ∧
    (purgeExpiredWork s).outstanding = s.outstanding ∧
    (purgeExpiredWork s).outstandingCount = s.outstandingCount ∧
    (purgeExpiredWork s).maxQps = s.maxQps ∧
    (purgeExpiredWork s).maxOutstanding = s.maxOutstanding ∧
    (purgeExpiredWork s).nextId = s.nextId ∧
    (purgeExpiredWork s).startLog = s.startLog ∧
    (purgeExpiredWork s).drainActive = s.drainActive ∧
    (purgeExpiredWork s).drainFired = s.drainFired ∧
    (purgeExpiredWork s).expiringWorkTimer = s.expiringWorkTimer := by
  refine ⟨?_, ?_, ?_, ?_, ?_, ?_, ?_, ?_, ?_, ?_, ?_⟩ <;> rfl

theorem executeReadyWorkAux_const (l : List Nat) (s : ThrottleState) :
    (executeReadyWorkAux l s).now = s.now ∧
    (executeReadyWorkAux l s).maxQps = s.maxQps ∧
    (executeReadyWorkAux l s).maxOutstanding = s.maxOutstanding ∧
    (executeReadyWorkAux l s).nextId = s.nextId ∧
    (executeReadyWorkAux l s).drainActive = s.drainActive ∧
    (executeReadyWorkAux l s).drainFired = s.drainFired ∧
    (executeReadyWorkAux l s).expiringWorkTimer = s.expiringWorkTimer := by
  induction l generalizing s with
  | nil => refine ⟨?_, ?_, ?_, ?_, ?_, ?_, ?_⟩ <;> rfl
  | cons id rest ih =>
    by_cases hc : s.qpsCount < s.maxQps ∧ s.outstandingCount < s.maxOutstanding
    · simp only [executeReadyWorkAux, if_pos hc]
      exact ih _
    · simp only [executeReadyWorkAux, if_neg hc]
      refine ⟨?_, ?_, ?_, ?_, ?_, ?_, ?_⟩ <;> trivial

theorem executeReadyWorkAux_tracked_extend (l : List Nat) (s : ThrottleState) :
    ∃ t2, (executeReadyWorkAux l s).tracked = s.tracked ++ t2 := by
  induction l generalizing s with
  | nil => exact ⟨[], (List.append_nil _).symm⟩
  | cons id rest ih =>
    by_cases hc : s.qpsCount < s.maxQps ∧ s.outstandingCount < s.maxOutstanding
    · simp only [executeReadyWorkAux, if_pos hc]
      obtain ⟨t2, ht⟩ := ih (startWorkItem id { s with queued := rest })
      exact ⟨(id, s.now + 1000) :: t2, by simpa [startWorkItem] using ht⟩
    · simp only [executeReadyWorkAux, if_neg hc]
      exact ⟨[], (List.append_nil _).symm⟩

theorem updateTimer_eq_set (s : ThrottleState) :
    ∃ o, updateTimer s = { s with expiringWorkTimer := o } := by
  unfold updateTimer
  by_cases hc : s.queued ≠ [] ∧ s.maxQps ≤ s.qpsCount ∧ s.outstandingCount < s.maxOutstanding
  · rw [if_pos hc]
    cases ht : s.expiringWorkTimer with
    | some f =>
      refine ⟨some f, ?_⟩
      simp only [ht]
      rw [← ht]
    | none =>
      refine ⟨some (s.now + firstExpirationDelay s), ?_⟩
      simp only [ht]
  · rw [if_neg hc]
    exact ⟨none, rfl⟩

theorem processWork_const (s : ThrottleState) :
    (processWork s).now = s.now ∧
    (processWork s).maxQps = s.maxQps ∧
    (processWork s).maxOutstanding = s.maxOutstanding ∧
    (processWork s).nextId = s.nextId ∧
    (processWork s).drainActive = s.drainActive ∧
    (processWork s).drainFired = s.drainFired := by
  obtain ⟨o, ho⟩ := updateTimer_eq_set (executeReadyWork (purgeExpiredWork s))
  have he := executeReadyWorkAux_const (purgeExpiredWork s).queued (purgeExpiredWork s)
  simp only [processWork, ho]
  exact ⟨he.1, he.2.1, he.2.2.1, he.2.2.2.1, he.2.2.2.2.1, he.2.2.2.2.2.1⟩

theorem mem_tracked_processWork (s : ThrottleState) (p : Nat × Nat)
    (hp : p ∈ s.tracked) (hunexp : s.now < p.2) : p ∈ (processWork s).tracked := by
  obtain ⟨o, ho⟩ := updateTimer_eq_set (executeReadyWork (purgeExpiredWork s))
  obtain ⟨t2, ht2⟩ :=
    executeReadyWorkAux_tracked_extend (purgeExpiredWork s).queued (purgeExpiredWork s)
  have hpurge : p ∈ (purgeExpiredWork s).tracked := by
    obtain ⟨d, hd, hall⟩ := purgeList_split s.now s.tracked
    have : p ∈ d ++ purgeList s.now s.tracked := by rw [← hd]; exact hp
    rcases List.mem_append.mp this with hmem | hmem
    · exact absurd (hall p hmem).2 (Nat.not_le_of_lt hunexp)
    · exact hmem
  have hmem2 : p ∈ (executeReadyWorkAux (purgeExpiredWork s).queued (purgeExpiredWork s)).tracked := by
    rw [ht2]
    exact List.mem_append.mpr (Or.inl hpurge)
  show p ∈ (updateTimer (executeReadyWork (purgeExpiredWork s))).tracked
  rw [ho]
  exact hmem2

/-- C4: for every submitted work function, the future returned by
`callThrottled` (the item's `whenComplete`, settled only by the
`resolve`/`reject` calls of `Work.execute`) settles exactly once and with
exactly the outcome of that item's own work-function invocation: the
resolution value on fulfilment, the rejection reason on rejection, and the
thrown error on a synchronous throw. -/
theorem settlement_fidelity (α ε : Type) :
    (∀ v : α, settlementsOf (@executeCalls α ε
        (StartResult.promiseResult (POutcome.ok v))) = [POutcome.ok v]) ∧
    (∀ e : ε, settlementsOf (@executeCalls α ε
        (StartResult.promiseResult (POutcome.err e))) = [POutcome.err e]) ∧
    (∀ e : ε, settlementsOf (@executeCalls α ε
        (StartResult.syncThrow e)) = [POutcome.err e]) ∧
    (∀ r : StartResult α ε, (settlementsOf (executeCalls r)).length = 1) := by
  refine ⟨fun v => rfl, fun e => rfl, fun e => rfl, fun r => ?_⟩
  cases r with
  | syncThrow e => rfl
  | promiseResult o => cases o with
    | ok v => rfl
    | err e => rfl

/-- C4 witness. -/
theorem settlement_fidelity_witness :
    settlementsOf (@executeCalls Nat Nat (StartResult.syncThrow 5)) = [POutcome.err 5] :=
  (settlement_fidelity Nat Nat).2.2.1 5

/-- C6: a synchronous throw from the work function is handled identically to
an asynchronously rejected promise: `Work.execute` makes the very same calls
(one `cleanup`, then `reject` with that error), and the completion bookkeeping
is the normal one: the outstanding count is decremented, the item is not
unlinked and every still-unexpired tracked item stays tracked, the drain
signal fires exactly if this was the last outstanding item with no ready
work, and a new admission pass runs exactly if the outstanding limit was
saturated. -/
theorem sync_throw_bookkeeping (α ε : Type) (s : ThrottleState) (id : Nat)
    (hid : id ∈ s.outstanding) :
    (∀ e : ε, @executeCalls α ε (StartResult.syncThrow e)
        = executeCalls (StartResult.promiseResult (POutcome.err e))) ∧
    (∀ r : StartResult α ε, cleanupCount (executeCalls r) = 1) ∧
    (cleanupState id s).outstandingCount = s.outstandingCount - 1 ∧
    (cleanupState id s).tracked = s.tracked ∧
    ((cleanupState id s).drainFired = true ↔
      (s.outstandingCount - 1 = 0 ∧ s.queued = [])) ∧
    (workCleanup id s = if s.maxOutstanding ≤ s.outstandingCount
      then processWork (cleanupState id s) else cleanupState id s) ∧
    (∀ p ∈ s.tracked, s.now < p.2 → p ∈ (workCleanup id s).tracked) := by
  refine ⟨fun e => rfl, ?_, rfl, rfl, by simp [cleanupState], ?_, ?_⟩
  · intro r
    cases r with
    | syncThrow e => rfl
    | promiseResult o => cases o with
      | ok v => rfl
      | err e => rfl
  · simp only [workCleanup, if_pos hid]
  · intro p hp hunexp
    simp only [workCleanup, if_pos hid]
    by_cases hsat : s.maxOutstanding ≤ s.outstandingCount
    · rw [if_pos hsat]
      exact mem_tracked_processWork _ p hp hunexp
    · rw [if_neg hsat]
      exact hp

/-- C10: constructing a throttle with an explicit zero for `maxOutstanding` or
`maxQps` behaves identically to omitting the field: the zero falls back to
`Number.MAX_SAFE_INTEGER`, so that dimension is effectively unthrottled — a
submission to a both-zero throttle is admitted immediately rather than being
queued forever by a zero-capacity throttle. -/
theorem zero_limit_default :
    limitOrDefault (some 0) = MAX_SAFE_INTEGER ∧
    limitOrDefault none = MAX_SAFE_INTEGER ∧
    (∀ t0 q, initThrottle ⟨some 0, q⟩ t0 = initThrottle ⟨none, q⟩ t0) ∧
    (∀ t0 m, initThrottle ⟨m, some 0⟩ t0 = initThrottle ⟨m, none⟩ t0) ∧
    (step Event.submit (initThrottle ⟨some 0, some 0⟩ 0)).outstanding = [0] ∧
    (step Event.submit (initThrottle ⟨some 0, some 0⟩ 0)).queued = [] := by
  refine ⟨rfl, rfl, fun t0 q => rfl, fun t0 m => ?_, by decide, by decide⟩
  simp [initThrottle, limitOrDefault]

/-- C9 counterexample: the claim says that when the drain future resolves no
item started within the preceding 1000ms remains in the tracked list.  On an
unthrottled configuration, submit one item at t = 0 and complete it at t = 0:
the drain signal fires during that completion, yet the item (started at 0,
expiring at 1000 > now = 0) is still linked in the tracked list. -/
theorem drain_not_quiescent_cex :
    (step (Event.complete 0) (step Event.submit
      (initThrottle ⟨none, none⟩ 0))).drainFired = true ∧
    (step (Event.complete 0) (step Event.submit
      (initThrottle ⟨none, none⟩ 0))).tracked = [(0, 1000)] ∧
    (step (Event.complete 0) (step Event.submit
      (initThrottle ⟨none, none⟩ 0))).now < 1000 := by
  refine ⟨by decide, by decide, by decide⟩

/-!  Lemmas about the `callAllThrottled` aggregation fold. -/

theorem aggRun_nil (st : AggState α ε) : aggRun st [] = st := rfl

theorem aggRun_cons (st : AggState α ε) (p : Nat × POutcome α ε)
    (rest : List (Nat × POutcome α ε)) :
    aggRun st (p :: rest) = aggRun (aggHandle st p.1 p.2) rest := rfl

theorem aggRun_append (st : AggState α ε) (l1 l2 : List (Nat × POutcome α ε)) :
    aggRun st (l1 ++ l2) = aggRun (aggRun st l1) l2 :=
  List.foldl_append _ _ _ _

theorem aggRun_results_length (evs : List (Nat × POutcome α ε)) (st : AggState α ε) :
    (aggRun st evs).results.length = st.results.length := by
  induction evs generalizing st with
  | nil => rfl
  | cons p rest ih =>
    obtain ⟨i, o⟩ := p
    rw [aggRun_cons]
    rw [ih]
    cases o with
    | ok v => simp [aggHandle, List.length_set]
    | err e =>
      simp only [aggHandle]
      split <;> rfl

theorem aggRun_get_of_not_mem (evs : List (Nat × POutcome α ε)) (st : AggState α ε)
    (j : Nat) (hj : ∀ p ∈ evs, p.1 ≠ j) :
    (aggRun st evs).results[j]? = st.results[j]? := by
  induction evs generalizing st with
  | nil => rfl
  | cons p rest ih =>
    obtain ⟨i, o⟩ := p
    rw [aggRun_cons]
    rw [ih _ (fun q hq => hj q (List.mem_cons_of_mem _ hq))]
    have hij : i ≠ j := hj (i, o) (List.mem_cons_self _ _)
    cases o with
    | ok v => simp [aggHandle, List.getElem?_set_ne hij]
    | err e =>
      simp only [aggHandle]
      split <;> rfl

theorem aggRun_get_of_mem (evs : List (Nat × POutcome α ε)) (st : AggState α ε)
    (j : Nat) (v : α) (hnodup : (evs.map Prod.fst).Nodup)
    (hmem : (j, POutcome.ok v) ∈ evs) (hlen : j < st.results.length) :
    (aggRun st evs).results[j]? = some (some v) := by
  induction evs generalizing st with
  | nil => cases hmem
  | cons p rest ih =>
    obtain ⟨i, o⟩ := p
    have hnodup2 : (rest.map Prod.fst).Nodup := (List.nodup_cons.mp hnodup).2
    have hnotin : i ∉ rest.map Prod.fst := (List.nodup_cons.mp hnodup).1
    rcases List.mem_cons.mp hmem with heq | hmem2
    · obtain ⟨rfl, rfl⟩ := Prod.mk.inj heq
      rw [aggRun_cons]
      have hrest : ∀ q ∈ rest, q.1 ≠ j := by
        intro q hq hcontra
        exact hnotin (hcontra ▸ List.mem_map.mpr ⟨q, hq, rfl⟩)
      rw [aggRun_get_of_not_mem rest _ j hrest]
      simp [aggHandle, List.getElem?_set_self hlen]
    · have hij : i ≠ j := by
        intro hcontra
        exact hnotin (hcontra ▸ List.mem_map.mpr ⟨(j, POutcome.ok v), hmem2, rfl⟩)
      rw [aggRun_cons]
      cases o with
      | ok w =>
        refine ih _ hnodup2 hmem2 ?_
        simp [aggHandle, List.length_set, hlen]
      | err e =>
        refine ih _ hnodup2 hmem2 ?_
        simp only [aggHandle]
        split <;> exact hlen

theorem aggRun_allok (evs : List (Nat × POutcome α ε)) (st : AggState α ε)
    (hok : ∀ p ∈ evs, ∃ v, p.2 = POutcome.ok v)
    (hrej : st.rejected = false) (hset : st.settlements = [])
    (hcount : st.outstandingResultCount = evs.length) (hne : evs ≠ []) :
    (aggRun st evs).settlements = [POutcome.ok ((aggRun st evs).results)] := by
  induction evs generalizing st with
  | nil => exact absurd rfl hne
  | cons p rest ih =>
    obtain ⟨i, o⟩ := p
    obtain ⟨v, hv⟩ := hok (i, o) (List.mem_cons_self _ _)
    cases hv
    rw [aggRun_cons]
    simp only [List.length_cons] at hcount
    cases rest with
    | nil =>
      simp only [List.length_nil] at hcount
      have hc : st.outstandingResultCount - 1 = 0 := by omega
      rw [aggRun_nil]
      simp [aggHandle, hc, hset]
    | cons q rest2 =>
      simp only [List.length_cons] at hcount
      have hc : st.outstandingResultCount - 1 ≠ 0 := by omega
      refine ih _ (fun q2 hq2 => hok q2 (List.mem_cons_of_mem _ hq2)) ?_ ?_ ?_ (by simp)
      · simp [aggHandle, hrej]
      · simp [aggHandle, hc, hset]
      · show st.outstandingResultCount - 1 = (q :: rest2).length
        simp only [List.length_cons]
        omega

theorem aggRun_pending (evs : List (Nat × POutcome α ε)) (st : AggState α ε)
    (hok : ∀ p ∈ evs, ∃ v, p.2 = POutcome.ok v)
    (hrej : st.rejected = false) (hset : st.settlements = [])
    (hcount : evs.length < st.outstandingResultCount) :
    (aggRun st evs).rejected = false ∧ (aggRun st evs).settlements = [] ∧
    (aggRun st evs).outstandingResultCount = st.outstandingResultCount - evs.length := by
  induction evs generalizing st with
  | nil => exact ⟨hrej, hset, rfl⟩
  | cons p rest ih =>
    obtain ⟨i, o⟩ := p
    obtain ⟨v, hv⟩ := hok (i, o) (List.mem_cons_self _ _)
    cases hv
    rw [aggRun_cons]
    simp only [List.length_cons] at hcount
    have hc : st.outstandingResultCount - 1 ≠ 0 := by omega
    have hstep := ih (aggHandle st i (POutcome.ok v))
      (fun q hq => hok q (List.mem_cons_of_mem _ hq))
      (by simp [aggHandle, hrej]) (by simp [aggHandle, hc, hset])
      (by show rest.length < st.outstandingResultCount - 1
          omega)
    refine ⟨hstep.1, hstep.2.1, ?_⟩
    rw [hstep.2.2]
    show st.outstandingResultCount - 1 - rest.length
      = st.outstandingResultCount - (rest.length + 1)
    omega

theorem aggRun_stable (evs : List (Nat × POutcome α ε)) (st : AggState α ε)
    (hrej : st.rejected = true)
    (hcount : evs.countP isOkEvent < st.outstandingResultCount) :
    (aggRun st evs).settlements = st.settlements ∧ (aggRun st evs).rejected = true := by
  induction evs generalizing st with
  | nil => exact ⟨rfl, hrej⟩
  | cons p rest ih =>
    obtain ⟨i, o⟩ := p
    rw [aggRun_cons]
    rw [List.countP_cons] at hcount
    cases o with
    | ok v =>
      have hcount2 : rest.countP isOkEvent + 1 < st.outstandingResultCount := by
        simpa [isOkEvent] using hcount
      have hc : st.outstandingResultCount - 1 ≠ 0 := by omega
      have hih := ih (aggHandle st i (POutcome.ok v)) (by simp [aggHandle, hrej])
        (by show rest.countP isOkEvent < st.outstandingResultCount - 1
            omega)
      refine ⟨?_, hih.2⟩
      rw [hih.1]
      simp [aggHandle, hc]
    | err e =>
      have hagg : aggHandle st i (POutcome.err e) = st := by simp [aggHandle, hrej]
      rw [hagg]
      refine ih _ hrej ?_
      have hcount2 : rest.countP isOkEvent < st.outstandingResultCount := by
        simpa [isOkEvent] using hcount
      exact hcount2

/-- C8 (amended to non-empty arrays): `callAllThrottled` submits every
function through one throttle and aggregates with index-to-result mapping:
for every non-empty array and every completion order of the per-item
settlements, if every item fulfils then the aggregate resolves exactly once
with the results in input order; and if some item rejects (all earlier
settlements in completion order being fulfilments) the aggregate rejects
exactly once, with that first error — later settlements, fulfilments or
further rejections, never add a settlement to the already-settled
aggregate. -/
theorem callAllThrottled_spec (α ε : Type) (n : Nat) (perm : List Nat)
    (outcomes : Nat → POutcome α ε) (hn : n ≠ 0) (hperm : perm.Perm (List.range n)) :
    (∀ vals : Nat → α, (∀ i ∈ perm, outcomes i = POutcome.ok (vals i)) →
      (callAllThrottled n (perm.map fun k => (k, outcomes k))).settlements
        = [POutcome.ok ((List.range n).map fun k => some (vals k))]) ∧
    (∀ pre i e post,
      perm.map (fun k => (k, outcomes k)) = pre ++ (i, POutcome.err e) :: post →
      (∀ p ∈ pre, ∃ v, p.2 = POutcome.ok v) →
      (callAllThrottled n (perm.map fun k => (k, outcomes k))).settlements
        = [POutcome.err e]) := by
  have hlenp : perm.length = n := hperm.length_eq.trans (List.length_range n)
  have hevslen : (perm.map fun k => (k, outcomes k)).length = n := by
    rw [List.length_map, hlenp]
  have hfst : ((perm.map fun k => (k, outcomes k)).map Prod.fst) = perm := by
    rw [List.map_map]
    exact List.map_id perm
  have hnodup : ((perm.map fun k => (k, outcomes k)).map Prod.fst).Nodup := by
    rw [hfst]
    exact hperm.nodup_iff.mpr (List.nodup_range n)
  constructor
  · intro vals hvals
    have hok : ∀ p ∈ (perm.map fun k => (k, outcomes k)), ∃ v, p.2 = POutcome.ok v := by
      intro p hp
      obtain ⟨k, hk, rfl⟩ := List.mem_map.mp hp
      exact ⟨vals k, hvals k hk⟩
    have hne : (perm.map fun k => (k, outcomes k)) ≠ [] := by
      intro hcontra
      rw [hcontra] at hevslen
      exact hn hevslen.symm
    have hsett := aggRun_allok (perm.map fun k => (k, outcomes k))
      { rejected := false, results := List.replicate n none,
        outstandingResultCount := n, settlements := [] }
      hok rfl rfl (by simpa using hevslen.symm) hne
    have hres : (aggRun
        { rejected := false, results := List.replicate n none,
          outstandingResultCount := n, settlements := [] }
        (perm.map fun k => (k, outcomes k))).results
        = (List.range n).map fun k => some (vals k) := by
      apply List.ext_getElem?
      intro j
      by_cases hj : j < n
      · have hjperm : j ∈ perm := (hperm.mem_iff).mpr (List.mem_range.mpr hj)
        have hmem : (j, POutcome.ok (vals j)) ∈ (perm.map fun k => (k, outcomes k)) :=
          List.mem_map.mpr ⟨j, hjperm, congrArg (Prod.mk j) (hvals j hjperm)⟩
        rw [aggRun_get_of_mem _ _ j (vals j) hnodup hmem (by simpa using hj)]
        rw [List.getElem?_map, List.getElem?_range hj]
        rfl
      · rw [List.getElem?_eq_none, List.getElem?_eq_none]
        · simp only [List.length_map, List.length_range]
          omega
        · rw [aggRun_results_length]
          simp only [List.length_replicate]
          omega
    exact hsett.trans (by rw [hres])
  · intro pre i e post hsplit hpre
    have hlen2 : pre.length + (post.length + 1) = n := by
      have := congrArg List.length hsplit
      rw [hevslen, List.length_append, List.length_cons] at this
      omega
    show (aggRun
      { rejected := false, results := List.replicate n none,
        outstandingResultCount := n, settlements := [] }
      (perm.map fun k => (k, outcomes k))).settlements = [POutcome.err e]
    rw [hsplit, aggRun_append, aggRun_cons]
    have hpend := aggRun_pending pre
      { rejected := false, results := List.replicate n none,
        outstandingResultCount := n, settlements := [] }
      hpre rfl rfl (by show pre.length < n; omega)
    have h2r : (aggHandle (aggRun
        { rejected := false, results := List.replicate n none,
          outstandingResultCount := n, settlements := [] } pre) i
        (POutcome.err e)).rejected = true := by
      simp [aggHandle, hpend.1]
    have h2s : (aggHandle (aggRun
        { rejected := false, results := List.replicate n none,
          outstandingResultCount := n, settlements := [] } pre) i
        (POutcome.err e)).settlements = [POutcome.err e] := by
      simp [aggHandle, hpend.1, hpend.2.1]
    have h2c : (aggHandle (aggRun
        { rejected := false, results := List.replicate n none,
          outstandingResultCount := n, settlements := [] } pre) i
        (POutcome.err e)).outstandingResultCount = n - pre.length := by
      have : (aggHandle (aggRun
          { rejected := false, results := List.replicate n none,
            outstandingResultCount := n, settlements := [] } pre) i
          (POutcome.err e)).outstandingResultCount
          = (aggRun
          { rejected := false, results := List.replicate n none,
            outstandingResultCount := n, settlements := [] } pre).outstandingResultCount := by
        simp only [aggHandle]
        split <;> rfl
      rw [this, hpend.2.2]
    have hcountp : post.countP isOkEvent < (aggHandle (aggRun
        { rejected := false, results := List.replicate n none,
          outstandingResultCount := n, settlements := [] } pre) i
        (POutcome.err e)).outstandingResultCount := by
      rw [h2c]
      have hle := @List.countP_le_length _ isOkEvent post
      omega
    have hstab := aggRun_stable post _ h2r hcountp
    rw [hstab.1, h2s]

/-- C8 counterexample: for the empty array of work functions every item has
(vacuously) fulfilled, yet `callAllThrottled` never resolves the aggregate:
`outstandingResultCount` starts at 0 and `resolve` is only ever called inside
a per-item fulfilment handler, of which there are none.  The aggregate's call
list stays empty instead of being the claimed resolution. -/
theorem callAllThrottled_empty_cex :
    (@callAllThrottled Nat Nat 0 []).settlements = [] ∧
    ∀ vs : List (Option Nat),
      ([] : List (POutcome (List (Option Nat)) Nat)) ≠ [POutcome.ok vs] := by
  exact ⟨rfl, fun vs h => List.noConfusion h⟩

/-!  Counting helper and the preservation of `Inv` by every engine routine. -/

theorem length_le_of_nodup_subset {γ : Type} [DecidableEq γ] {l1 l2 : List γ}
    (h1 : l1.Nodup) (h2 : ∀ a ∈ l1, a ∈ l2) : l1.length ≤ l2.length := by
  calc l1.length = l1.toFinset.card := (List.toFinset_card_of_nodup h1).symm
  _ ≤ l2.toFinset.card := Finset.card_le_card
      (fun a ha => List.mem_toFinset.mpr (h2 a (List.mem_toFinset.mp ha)))
  _ ≤ l2.length := List.toFinset_card_le l2

theorem window_count_le_tracked (s : ThrottleState)
    (hexp : ∀ e ∈ s.startLog, e.2.2 = e.2.1 + 1000)
    (hsorted : List.Pairwise (fun a b => a < b) (s.startLog.map (fun e => e.1)))
    (hunexp : ∀ e ∈ s.startLog, s.now < e.2.2 → (e.1, e.2.2) ∈ s.tracked)
    (t : Nat) (ht : s.now ≤ t) :
    (startedInWindow s t).length ≤ s.tracked.length := by
  have hFsub : (startedInWindow s t).Sublist s.startLog := List.filter_sublist _
  have hFids : ((startedInWindow s t).map (fun e => e.1)).Nodup := by
    have hidsnodup : (s.startLog.map (fun e => e.1)).Nodup :=
      hsorted.imp (fun hab => Nat.ne_of_lt hab)
    exact hidsnodup.sublist (hFsub.map _)
  have hkeynodup : ((startedInWindow s t).map (fun e => (e.1, e.2.2))).Nodup := by
    apply List.Nodup.of_map Prod.fst
    have hcomp : (((startedInWindow s t).map (fun e => (e.1, e.2.2))).map Prod.fst)
        = (startedInWindow s t).map (fun e => e.1) := by
      rw [List.map_map]
      rfl
    rw [hcomp]
    exact hFids
  have hsubset : ∀ x ∈ (startedInWindow s t).map (fun e => (e.1, e.2.2)), x ∈ s.tracked := by
    intro x hx
    obtain ⟨e, heF, rfl⟩ := List.mem_map.mp hx
    obtain ⟨helog, hepred⟩ := List.mem_filter.mp heF
    have hw : e.2.1 ≤ t ∧ t < e.2.1 + 1000 := of_decide_eq_true hepred
    apply hunexp e helog
    rw [hexp e helog]
    exact Nat.lt_of_le_of_lt ht hw.2
  have := length_le_of_nodup_subset hkeynodup hsubset
  rwa [List.length_map] at this

theorem inv_initThrottle (opts : AsyncThrottleOptions) (t0 : Nat) :
    Inv (initThrottle opts t0) := by
  refine ⟨rfl, rfl, Nat.zero_le _, Nat.zero_le _, ?_, ?_, ?_, ?_, ?_, ?_, ?_, ?_, ?_, ?_, ?_, ?_⟩
  · intro e he
    cases he
  · exact List.Pairwise.nil
  · exact List.Pairwise.nil
  · intro e he
    cases he
  · intro j hj
    cases hj
  · intro e he
    cases he
  · intro e he
    cases he
  · intro p hp
    cases hp
  · intro i hi
    cases hi
  · exact List.nodup_nil
  · simp [initThrottle]
  · intro t
    exact Nat.zero_le _

theorem inv_purgeExpiredWork (s : ThrottleState) (hs : Inv s) :
    Inv (purgeExpiredWork s) := by
  obtain ⟨d, hd, hall⟩ := purgeList_split s.now s.tracked
  have hlen : s.tracked.length = d.length + (purgeList s.now s.tracked).length := by
    conv_lhs => rw [hd]
    rw [List.length_append]
  refine ⟨?_, hs.out_eq, hs.out_le, ?_, hs.log_exp, hs.log_sorted, hs.queued_sorted,
    hs.log_lt_queued, hs.queued_lt_next, hs.log_lt_next, ?_, ?_, hs.outstanding_sub_log,
    hs.outstanding_nodup, hs.drain_iff, hs.window_le⟩
  · show s.qpsCount - (s.tracked.length - (purgeList s.now s.tracked).length)
      = (purgeList s.now s.tracked).length
    have := hs.qps_eq
    omega
  · show s.qpsCount - (s.tracked.length - (purgeList s.now s.tracked).length) ≤ s.maxQps
    have := hs.qps_le
    omega
  · intro e he hnow
    have hmem := hs.unexpired_tracked e he hnow
    rw [hd] at hmem
    rcases List.mem_append.mp hmem with hmem2 | hmem2
    · exact absurd (hall _ hmem2).2 (Nat.not_le_of_lt hnow)
    · exact hmem2
  · intro p hp
    apply hs.tracked_sub_log
    rw [hd]
    exact List.mem_append.mpr (Or.inr hp)

theorem inv_startWorkItem (s : ThrottleState) (id : Nat) (rest : List Nat)
    (hs : Inv s) (hq : s.queued = id :: rest)
    (hqps : s.qpsCount < s.maxQps) (hout : s.outstandingCount < s.maxOutstanding) :
    Inv (startWorkItem id { s with queued := rest }) := by
  have hidq : id ∈ s.queued := by
    rw [hq]
    exact List.mem_cons_self _ _
  have hqsorted : List.Pairwise (fun a b => a < b) (id :: rest) := by
    rw [← hq]
    exact hs.queued_sorted
  have hidrest : ∀ j ∈ rest, id < j := (List.pairwise_cons.mp hqsorted).1
  have hlogle : ∀ e ∈ s.startLog, e.1 < id := fun e he => hs.log_lt_queued e he id hidq
  refine ⟨?_, ?_, ?_, ?_, ?_, ?_, ?_, ?_, ?_, ?_, ?_, ?_, ?_, ?_, ?_, ?_⟩
  · show s.qpsCount + 1 = (s.tracked ++ [(id, s.now + 1000)]).length
    rw [List.length_append, hs.qps_eq]
    rfl
  · show s.outstandingCount + 1 = (s.outstanding ++ [id]).length
    rw [List.length_append, hs.out_eq]
    rfl
  · exact hout
  · exact hqps
  · intro e he
    rcases List.mem_append.mp he with he2 | he2
    · exact hs.log_exp e he2
    · rcases List.mem_cons.mp he2 with rfl | he3
      · rfl
      · cases he3
  · show List.Pairwise (fun a b => a < b)
      ((s.startLog ++ [(id, s.now, s.now + 1000)]).map (fun e => e.1))
    rw [List.map_append]
    refine List.pairwise_append.mpr ⟨hs.log_sorted, ?_, ?_⟩
    · exact List.pairwise_singleton _ _
    · intro a ha b hb
      obtain ⟨e, he, rfl⟩ := List.mem_map.mp ha
      rcases List.mem_cons.mp hb with rfl | hb2
      · exact hlogle e he
      · cases hb2
  · exact (List.pairwise_cons.mp hqsorted).2
  · intro e he j hj
    rcases List.mem_append.mp he with he2 | he2
    · refine hs.log_lt_queued e he2 j ?_
      rw [hq]
      exact List.mem_cons_of_mem _ hj
    · rcases List.mem_cons.mp he2 with rfl | he3
      · exact hidrest j hj
      · cases he3
  · intro j hj
    refine hs.queued_lt_next j ?_
    rw [hq]
    exact List.mem_cons_of_mem _ hj
  · intro e he
    rcases List.mem_append.mp he with he2 | he2
    · exact hs.log_lt_next e he2
    · rcases List.mem_cons.mp he2 with rfl | he3
      · exact hs.queued_lt_next id hidq
      · cases he3
  · intro e he hnow
    rcases List.mem_append.mp he with he2 | he2
    · exact List.mem_append.mpr (Or.inl (hs.unexpired_tracked e he2 hnow))
    · rcases List.mem_cons.mp he2 with rfl | he3
      · exact List.mem_append.mpr (Or.inr (List.mem_cons_self _ _))
      · cases he3
  · intro p hp
    rcases List.mem_append.mp hp with hp2 | hp2
    · exact List.mem_append.mpr (Or.inl (hs.tracked_sub_log p hp2))
    · rcases List.mem_cons.mp hp2 with rfl | hp3
      · refine List.mem_append.mpr (Or.inr ?_)
        have : s.now + 1000 - 1000 = s.now := by omega
        rw [this]
        exact List.mem_cons_self _ _
      · cases hp3
  · intro i hi
    rcases List.mem_append.mp hi with hi2 | hi2
    · obtain ⟨e, he, rfl⟩ := hs.outstanding_sub_log i hi2
      exact ⟨e, List.mem_append.mpr (Or.inl he), rfl⟩
    · rcases List.mem_cons.mp hi2 with rfl | hi3
      · exact ⟨(i, s.now, s.now + 1000), List.mem_append.mpr (Or.inr (List.mem_cons_self _ _)), rfl⟩
      · cases hi3
  · refine List.nodup_append.mpr ⟨hs.outstanding_nodup, List.nodup_singleton _, ?_⟩
    intro a ha hb
    rcases List.mem_cons.mp hb with rfl | hb2
    · obtain ⟨e, he, rfl⟩ := hs.outstanding_sub_log a ha
      exact absurd rfl (Nat.ne_of_lt (hlogle e he))
    · cases hb2
  · have hpre : s.drainActive = true := hs.drain_iff.mpr (Or.inl (by rw [hq]; simp))
    show s.drainActive = true ↔ (rest ≠ [] ∨ s.outstanding ++ [id] ≠ [])
    refine iff_of_true hpre (Or.inr ?_)
    simp
  · intro t
    show ((s.startLog ++ [(id, s.now, s.now + 1000)]).filter
      (fun e => decide (e.2.1 ≤ t ∧ t < e.2.1 + 1000))).length ≤ s.maxQps
    rw [List.filter_append]
    by_cases hw : s.now ≤ t ∧ t < s.now + 1000
    · have hwt : s.now ≤ t := hw.1
      have hcount := window_count_le_tracked s hs.log_exp hs.log_sorted
        hs.unexpired_tracked t hwt
      rw [List.length_append]
      have hone : ((([(id, s.now, s.now + 1000)] : List (Nat × Nat × Nat))).filter
          (fun e => decide (e.2.1 ≤ t ∧ t < e.2.1 + 1000))).length ≤ 1 :=
        List.length_filter_le _ _
      have hold : (startedInWindow s t).length ≤ s.tracked.length := hcount
      rw [← hs.qps_eq] at hold
      show (startedInWindow s t).length + _ ≤ s.maxQps
      omega
    · have hzero : (([(id, s.now, s.now + 1000)] : List (Nat × Nat × Nat)).filter
          (fun e => decide (e.2.1 ≤ t ∧ t < e.2.1 + 1000))) = [] := by
        simp only [List.filter_cons, List.filter_nil]
        rw [if_neg]
        simp only [decide_eq_true_eq]
        exact hw
      rw [hzero, List.append_nil]
      exact hs.window_le t

theorem inv_executeReadyWorkAux (l : List Nat) (s : ThrottleState)
    (hs : Inv s) (hq : s.queued = l) : Inv (executeReadyWorkAux l s) := by
  induction l generalizing s with
  | nil => exact hs
  | cons id rest ih =>
    by_cases hc : s.qpsCount < s.maxQps ∧ s.outstandingCount < s.maxOutstanding
    · simp only [executeReadyWorkAux, if_pos hc]
      exact ih _ (inv_startWorkItem s id rest hs hq hc.1 hc.2) rfl
    · simp only [executeReadyWorkAux, if_neg hc]
      exact hs

theorem inv_executeReadyWork (s : ThrottleState) (hs : Inv s) :
    Inv (executeReadyWork s) :=
  inv_executeReadyWorkAux s.queued s hs rfl

theorem inv_updateTimer (s : ThrottleState) (hs : Inv s) : Inv (updateTimer s) := by
  obtain ⟨o, ho⟩ := updateTimer_eq_set s
  rw [ho]
  exact Inv.mk hs.qps_eq hs.out_eq hs.out_le hs.qps_le hs.log_exp hs.log_sorted
    hs.queued_sorted hs.log_lt_queued hs.queued_lt_next hs.log_lt_next
    hs.unexpired_tracked hs.tracked_sub_log hs.outstanding_sub_log
    hs.outstanding_nodup hs.drain_iff hs.window_le

theorem inv_processWork (s : ThrottleState) (hs : Inv s) : Inv (processWork s) :=
  inv_updateTimer _ (inv_executeReadyWork _ (inv_purgeExpiredWork s hs))

theorem inv_callThrottled (s : ThrottleState) (hs : Inv s) : Inv (callThrottled s) := by
  apply inv_processWork
  refine ⟨hs.qps_eq, hs.out_eq, hs.out_le, hs.qps_le, hs.log_exp, hs.log_sorted,
    ?_, ?_, ?_, ?_, hs.unexpired_tracked, hs.tracked_sub_log, hs.outstanding_sub_log,
    hs.outstanding_nodup, ?_, hs.window_le⟩
  · show List.Pairwise (fun a b => a < b) (s.queued ++ [s.nextId])
    refine List.pairwise_append.mpr ⟨hs.queued_sorted, List.pairwise_singleton _ _, ?_⟩
    intro a ha b hb
    rcases List.mem_cons.mp hb with rfl | hb2
    · exact hs.queued_lt_next a ha
    · cases hb2
  · intro e he j hj
    rcases List.mem_append.mp hj with hj2 | hj2
    · exact hs.log_lt_queued e he j hj2
    · rcases List.mem_cons.mp hj2 with rfl | hj3
      · exact hs.log_lt_next e he
      · cases hj3
  · intro j hj
    rcases List.mem_append.mp hj with hj2 | hj2
    · exact Nat.lt_succ_of_lt (hs.queued_lt_next j hj2)
    · rcases List.mem_cons.mp hj2 with rfl | hj3
      · exact Nat.lt_succ_self _
      · cases hj3
  · intro e he
    exact Nat.lt_succ_of_lt (hs.log_lt_next e he)
  · refine iff_of_true rfl (Or.inl ?_)
    show s.queued ++ [s.nextId] ≠ []
    simp

theorem inv_cleanupState (id : Nat) (s : ThrottleState) (hs : Inv s)
    (hid : id ∈ s.outstanding) : Inv (cleanupState id s) := by
  have herase : (s.outstanding.erase id).length = s.outstanding.length - 1 :=
    List.length_erase_of_mem hid
  refine ⟨hs.qps_eq, ?_, ?_, hs.qps_le, hs.log_exp, hs.log_sorted, hs.queued_sorted,
    hs.log_lt_queued, hs.queued_lt_next, hs.log_lt_next, hs.unexpired_tracked,
    hs.tracked_sub_log, ?_, hs.outstanding_nodup.erase id, ?_, hs.window_le⟩
  · show s.outstandingCount - 1 = (s.outstanding.erase id).length
    rw [herase, hs.out_eq]
  · show s.outstandingCount - 1 ≤ s.maxOutstanding
    have := hs.out_le
    omega
  · intro i hi
    exact hs.outstanding_sub_log i (List.mem_of_mem_erase hi)
  · show (if s.outstandingCount - 1 = 0 ∧ s.queued = [] then false else s.drainActive) = true
      ↔ (s.queued ≠ [] ∨ s.outstanding.erase id ≠ [])
    have houtlen := hs.out_eq
    by_cases hfired : s.outstandingCount - 1 = 0 ∧ s.queued = []
    · rw [if_pos hfired]
      refine iff_of_false (by simp) ?_
      rintro (hq | ho)
      · exact hq hfired.2
      · apply ho
        have hlen0 : (s.outstanding.erase id).length = 0 := by omega
        exact List.length_eq_zero.mp hlen0
    · rw [if_neg hfired]
      have hpre : s.drainActive = true := hs.drain_iff.mpr (Or.inr (List.ne_nil_of_mem hid))
      refine iff_of_true hpre ?_
      by_cases hq : s.queued = []
      · have hA : s.outstandingCount - 1 ≠ 0 := fun hA => hfired ⟨hA, hq⟩
        refine Or.inr ?_
        intro hnil
        apply hA
        have h0 : (s.outstanding.erase id).length = 0 := by rw [hnil]; rfl
        omega
      · exact Or.inl hq

theorem inv_workCleanup (id : Nat) (s : ThrottleState) (hs : Inv s) :
    Inv (workCleanup id s) := by
  unfold workCleanup
  by_cases hid : id ∈ s.outstanding
  · rw [if_pos hid]
    by_cases hsat : s.maxOutstanding ≤ s.outstandingCount
    · rw [if_pos hsat]
      exact inv_processWork _ (inv_cleanupState id s hs hid)
    · rw [if_neg hsat]
      exact inv_cleanupState id s hs hid
  · rw [if_neg hid]
    exact hs

theorem inv_set_timer (s : ThrottleState) (o : Option Nat) (hs : Inv s) :
    Inv { s with expiringWorkTimer := o } :=
  Inv.mk hs.qps_eq hs.out_eq hs.out_le hs.qps_le hs.log_exp hs.log_sorted
    hs.queued_sorted hs.log_lt_queued hs.queued_lt_next hs.log_lt_next
    hs.unexpired_tracked hs.tracked_sub_log hs.outstanding_sub_log
    hs.outstanding_nodup hs.drain_iff hs.window_le

theorem inv_set_drainFired (s : ThrottleState) (b : Bool) (hs : Inv s) :
    Inv { s with drainFired := b } :=
  Inv.mk hs.qps_eq hs.out_eq hs.out_le hs.qps_le hs.log_exp hs.log_sorted
    hs.queued_sorted hs.log_lt_queued hs.queued_lt_next hs.log_lt_next
    hs.unexpired_tracked hs.tracked_sub_log hs.outstanding_sub_log
    hs.outstanding_nodup hs.drain_iff hs.window_le

theorem inv_timerFired (s : ThrottleState) (hs : Inv s) : Inv (timerFired s) := by
  unfold timerFired
  cases ht : s.expiringWorkTimer with
  | none => exact hs
  | some f =>
    show Inv (if f ≤ s.now then processWork { s with expiringWorkTimer := none } else s)
    by_cases hf : f ≤ s.now
    · rw [if_pos hf]
      exact inv_processWork _ (inv_set_timer s none hs)
    · rw [if_neg hf]
      exact hs

theorem inv_tick (s : ThrottleState) (d : Nat) (hs : Inv s) :
    Inv { s with now := s.now + d, drainFired := false } := by
  refine ⟨hs.qps_eq, hs.out_eq, hs.out_le, hs.qps_le, hs.log_exp, hs.log_sorted,
    hs.queued_sorted, hs.log_lt_queued, hs.queued_lt_next, hs.log_lt_next, ?_,
    hs.tracked_sub_log, hs.outstanding_sub_log, hs.outstanding_nodup, hs.drain_iff,
    hs.window_le⟩
  intro e he hnow
  exact hs.unexpired_tracked e he (Nat.lt_of_le_of_lt (Nat.le_add_right _ _) hnow)

theorem inv_step (e : Event) (s : ThrottleState) (hs : Inv s) : Inv (step e s) := by
  cases e with
  | submit => exact inv_callThrottled _ (inv_set_drainFired s false hs)
  | complete id => exact inv_workCleanup id _ (inv_set_drainFired s false hs)
  | timerFire => exact inv_timerFired _ (inv_set_drainFired s false hs)
  | tick d => exact inv_tick s d hs

theorem reachable_inv {opts : AsyncThrottleOptions} {s : ThrottleState}
    (h : Reachable opts s) : Inv s := by
  induction h with
  | init t0 => exact inv_initThrottle opts t0
  | step e s2 h2 ih => exact inv_step e s2 ih

theorem workCleanup_const (id : Nat) (s : ThrottleState) :
    (workCleanup id s).maxOutstanding = s.maxOutstanding ∧
    (workCleanup id s).maxQps = s.maxQps := by
  unfold workCleanup
  by_cases hid : id ∈ s.outstanding
  · rw [if_pos hid]
    by_cases hsat : s.maxOutstanding ≤ s.outstandingCount
    · rw [if_pos hsat]
      exact ⟨(processWork_const _).2.2.1, (processWork_const _).2.1⟩
    · rw [if_neg hsat]
      exact ⟨rfl, rfl⟩
  · rw [if_neg hid]
    exact ⟨rfl, rfl⟩

theorem timerFired_const (s : ThrottleState) :
    (timerFired s).maxOutstanding = s.maxOutstanding ∧
    (timerFired s).maxQps = s.maxQps := by
  unfold timerFired
  cases ht : s.expiringWorkTimer with
  | none => exact ⟨rfl, rfl⟩
  | some f =>
    show (if f ≤ s.now then processWork { s with expiringWorkTimer := none } else s).maxOutstanding
        = s.maxOutstanding ∧
      (if f ≤ s.now then processWork { s with expiringWorkTimer := none } else s).maxQps = s.maxQps
    by_cases hf : f ≤ s.now
    · rw [if_pos hf]
      exact ⟨(processWork_const _).2.2.1, (processWork_const _).2.1⟩
    · rw [if_neg hf]
      exact ⟨rfl, rfl⟩

theorem step_const (e : Event) (s : ThrottleState) :
    (step e s).maxOutstanding = s.maxOutstanding ∧ (step e s).maxQps = s.maxQps := by
  cases e with
  | submit => exact ⟨(processWork_const _).2.2.1, (processWork_const _).2.1⟩
  | complete id => exact workCleanup_const id _
  | timerFire => exact timerFired_const _
  | tick d => exact ⟨rfl, rfl⟩

theorem reachable_limits {opts : AsyncThrottleOptions} {s : ThrottleState}
    (h : Reachable opts s) :
    s.maxOutstanding = limitOrDefault opts.maxOutstanding ∧
    s.maxQps = limitOrDefault opts.maxQps := by
  induction h with
  | init t0 => exact ⟨rfl, rfl⟩
  | step e s2 h2 ih => exact ⟨(step_const e s2).1.trans ih.1, (step_const e s2).2.trans ih.2⟩

theorem limitOrDefault_pos (x : Option Nat) : 1 ≤ limitOrDefault x := by
  cases x with
  | none =>
    show 1 ≤ MAX_SAFE_INTEGER
    decide
  | some v =>
    by_cases hv : v = 0
    · simp only [limitOrDefault, if_pos hv]
      show 1 ≤ MAX_SAFE_INTEGER
      decide
    · simp only [limitOrDefault, if_neg hv]
      omega

theorem processWork_empty (s : ThrottleState) (hq : s.queued = []) :
    (processWork s).queued = [] ∧ (processWork s).outstanding = s.outstanding := by
  obtain ⟨o, ho⟩ := updateTimer_eq_set (executeReadyWork (purgeExpiredWork s))
  have hexec : executeReadyWork (purgeExpiredWork s) = purgeExpiredWork s := by
    unfold executeReadyWork
    have hpq : (purgeExpiredWork s).queued = [] := hq
    rw [hpq]
    rfl
  show (updateTimer (executeReadyWork (purgeExpiredWork s))).queued = [] ∧
    (updateTimer (executeReadyWork (purgeExpiredWork s))).outstanding = s.outstanding
  rw [ho, hexec]
  exact ⟨hq, rfl⟩

theorem callThrottled_drainFired (s : ThrottleState) :
    (callThrottled s).drainFired = s.drainFired :=
  (processWork_const _).2.2.2.2.2

theorem drainFired_step_iff (s : ThrottleState) (e : Event) :
    (step e s).drainFired = true ↔
      ∃ id, e = Event.complete id ∧ id ∈ s.outstanding ∧
        s.outstandingCount - 1 = 0 ∧ s.queued = [] := by
  cases e with
  | submit =>
    have hf : (step Event.submit s).drainFired = false := callThrottled_drainFired _
    refine iff_of_false ?_ ?_
    · rw [hf]
      simp
    · rintro ⟨id, heq, -⟩
      exact Event.noConfusion heq
  | complete id0 =>
    show (workCleanup id0 { s with drainFired := false }).drainFired = true ↔ _
    by_cases hid : id0 ∈ s.outstanding
    · have hfval : (workCleanup id0 { s with drainFired := false }).drainFired
          = decide (s.outstandingCount - 1 = 0 ∧ s.queued = []) := by
        unfold workCleanup
        split
        · split
          · exact (processWork_const _).2.2.2.2.2
          · rfl
        · next hmem => exact absurd hid hmem
      rw [hfval]
      constructor
      · intro hdec
        have hprop := of_decide_eq_true hdec
        exact ⟨id0, rfl, hid, hprop.1, hprop.2⟩
      · rintro ⟨id1, heq, hmem, h1, h2⟩
        exact decide_eq_true ⟨h1, h2⟩
    · refine iff_of_false ?_ ?_
      · have hfval : (workCleanup id0 { s with drainFired := false }).drainFired = false := by
          unfold workCleanup
          split
          · next hmem => exact absurd hmem hid
          · rfl
        rw [hfval]
        simp
      · rintro ⟨id1, heq, hmem, -⟩
        injection heq with hinj
        exact hid (hinj ▸ hmem)
  | timerFire =>
    have hfval : (timerFired { s with drainFired := false }).drainFired = false := by
      unfold timerFired
      cases ht : ({ s with drainFired := false } : ThrottleState).expiringWorkTimer with
      | none => rfl
      | some f =>
        show (if f ≤ s.now then
            processWork { s with drainFired := false, expiringWorkTimer := none }
          else { s with drainFired := false, expiringWorkTimer := some f }).drainFired = false
        by_cases hf : f ≤ s.now
        · rw [if_pos hf]
          exact (processWork_const _).2.2.2.2.2
        · rw [if_neg hf]
    refine iff_of_false ?_ ?_
    · show ¬(timerFired { s with drainFired := false }).drainFired = true
      rw [hfval]
      simp
    · rintro ⟨id, heq, -⟩
      exact Event.noConfusion heq
  | tick d =>
    have hf : (step (Event.tick d) s).drainFired = false := rfl
    refine iff_of_false ?_ ?_
    · rw [hf]
      simp
    · rintro ⟨id, heq, -⟩
      exact Event.noConfusion heq

/-- C1: for every configuration and every sequence of submissions,
completions, and timer fires, `0 ≤ outstandingCount ≤ maxOutstanding` holds at
every reachable state (in particular after every admission pass), the counter
equals the number of started-but-not-completed items, and the admission loop
never starts an item when `outstandingCount ≥ maxOutstanding` (it returns the
state unchanged). -/
theorem outstanding_cap (opts : AsyncThrottleOptions) (s : ThrottleState)
    (h : Reachable opts s) :
    s.outstandingCount ≤ s.maxOutstanding ∧
    s.outstandingCount = s.outstanding.length ∧
    (∀ s2 : ThrottleState, s2.maxOutstanding ≤ s2.outstandingCount →
      executeReadyWork s2 = s2) := by
  have hs := reachable_inv h
  refine ⟨hs.out_le, hs.out_eq, ?_⟩
  intro s2 hsat
  unfold executeReadyWork
  cases hq : s2.queued with
  | nil => rfl
  | cons a l =>
    show executeReadyWorkAux (a :: l) s2 = s2
    have hnc : ¬(s2.qpsCount < s2.maxQps ∧ s2.outstandingCount < s2.maxOutstanding) := by
      rintro ⟨-, h2⟩
      omega
    simp only [executeReadyWorkAux]
    rw [if_neg hnc]

/-- C1 witness. -/
theorem outstanding_cap_witness :
    (step Event.submit (initThrottle ⟨some 1, none⟩ 0)).outstandingCount
      ≤ (step Event.submit (initThrottle ⟨some 1, none⟩ 0)).maxOutstanding :=
  (outstanding_cap ⟨some 1, none⟩ _ (Reachable.step Event.submit _ (Reachable.init 0))).1

/-- C2: at every reachable state every logged start has
`expiresAt = startedAt + 1000`; at most `maxQps` starts lie in any trailing
1000ms window (`startedAt ≤ t < startedAt + 1000`), whenever an item has
started; a start that is no longer linked in the tracked list has had its
full 1000ms interval elapse; and `qpsCount` counts exactly the tracked items,
completed or not. -/
theorem qps_cap (opts : AsyncThrottleOptions) (s : ThrottleState)
    (h : Reachable opts s) :
    (∀ e ∈ s.startLog, e.2.2 = e.2.1 + 1000) ∧
    (∀ t, (startedInWindow s t).length ≤ s.maxQps) ∧
    (∀ e ∈ s.startLog, (e.1, e.2.2) ∉ s.tracked → e.2.2 ≤ s.now) ∧
    s.qpsCount = s.tracked.length := by
  have hs := reachable_inv h
  refine ⟨hs.log_exp, hs.window_le, ?_, hs.qps_eq⟩
  intro e he hnot
  by_contra hcon
  push_neg at hcon
  exact hnot (hs.unexpired_tracked e he hcon)

/-- C2 witness. -/
theorem qps_cap_witness :
    (startedInWindow (step Event.submit (initThrottle ⟨none, some 1⟩ 0)) 0).length
      ≤ (step Event.submit (initThrottle ⟨none, some 1⟩ 0)).maxQps ∧
    (step Event.submit (initThrottle ⟨none, some 1⟩ 0)).qpsCount
      = (step Event.submit (initThrottle ⟨none, some 1⟩ 0)).tracked.length :=
  ⟨(qps_cap ⟨none, some 1⟩ _ (Reachable.step Event.submit _ (Reachable.init 0))).2.1 0,
   (qps_cap ⟨none, some 1⟩ _ (Reachable.step Event.submit _ (Reachable.init 0))).2.2.2⟩

/-- C3: items are started in strict submission order: the log of starts (in
chronological order) carries strictly increasing submission ids — so among
items unblocked by the same event the earliest-submitted starts first — and
every started item has a smaller submission id than every still-queued item,
i.e. a later-submitted item never starts while an earlier one is still
queued. -/
theorem fifo_admission (opts : AsyncThrottleOptions) (s : ThrottleState)
    (h : Reachable opts s) :
    List.Pairwise (fun a b => a < b) (s.startLog.map (fun e => e.1)) ∧
    (∀ e ∈ s.startLog, ∀ j ∈ s.queued, e.1 < j) := by
  have hs := reachable_inv h
  exact ⟨hs.log_sorted, hs.log_lt_queued⟩

/-- C3 witness. -/
theorem fifo_admission_witness :
    List.Pairwise (fun a b => a < b)
      ((step Event.submit (step Event.submit
        (initThrottle ⟨some 1, some 1⟩ 0))).startLog.map (fun e => e.1)) :=
  (fifo_admission ⟨some 1, some 1⟩ _ (Reachable.step Event.submit _
    (Reachable.step Event.submit _ (Reachable.init 0)))).1

/-- C5: `whenDrained` returns an already-resolved future exactly when no item
is queued and no item is outstanding (so when called on an idle throttle it
resolves immediately, and while non-idle it returns the pending quiescent
future); and the drain signal fires during an event exactly when that event
is the completion that brings `outstandingCount` to zero with no ready work
remaining — at which moment the pending drain future existed. -/
theorem drain_correct (opts : AsyncThrottleOptions) (s : ThrottleState)
    (h : Reachable opts s) :
    (whenDrained s = DrainResult.alreadyResolved ↔
      (s.queued = [] ∧ s.outstanding = [])) ∧
    (∀ e, (step e s).drainFired = true ↔
      ∃ id, e = Event.complete id ∧ id ∈ s.outstanding ∧
        s.outstandingCount - 1 = 0 ∧ s.queued = []) ∧
    (∀ e, (step e s).drainFired = true → s.drainActive = true) := by
  have hs := reachable_inv h
  refine ⟨?_, fun e => drainFired_step_iff s e, ?_⟩
  · by_cases hb : s.drainActive = true
    · have hw : whenDrained s = DrainResult.pendingQuiescent := by
        unfold whenDrained
        rw [if_pos hb]
      rw [hw]
      refine iff_of_false (fun hcon => DrainResult.noConfusion hcon) ?_
      rintro ⟨hq, ho⟩
      rcases hs.drain_iff.mp hb with hq2 | ho2
      · exact hq2 hq
      · exact ho2 ho
    · have hw : whenDrained s = DrainResult.alreadyResolved := by
        unfold whenDrained
        rw [if_neg hb]
      rw [hw]
      refine iff_of_true rfl ⟨?_, ?_⟩
      · by_contra hq
        exact hb (hs.drain_iff.mpr (Or.inl hq))
      · by_contra ho
        exact hb (hs.drain_iff.mpr (Or.inr ho))
  · intro e hf
    obtain ⟨id, -, hid, -, -⟩ := (drainFired_step_iff s e).mp hf
    exact hs.drain_iff.mpr (Or.inr (List.ne_nil_of_mem hid))

/-- C5 witness. -/
theorem drain_correct_witness :
    whenDrained (step (Event.complete 0) (step Event.submit
      (initThrottle ⟨none, none⟩ 0))) = DrainResult.alreadyResolved ↔
    ((step (Event.complete 0) (step Event.submit
      (initThrottle ⟨none, none⟩ 0))).queued = [] ∧
     (step (Event.complete 0) (step Event.submit
      (initThrottle ⟨none, none⟩ 0))).outstanding = []) :=
  (drain_correct ⟨none, none⟩ _ (Reachable.step (Event.complete 0) _
    (Reachable.step Event.submit _ (Reachable.init 0)))).1

/-- C6 witness. -/
theorem sync_throw_bookkeeping_witness :
    (cleanupState 0 (step Event.submit (initThrottle ⟨none, none⟩ 0))).outstandingCount
      = (step Event.submit (initThrottle ⟨none, none⟩ 0)).outstandingCount - 1 ∧
    (cleanupState 0 (step Event.submit (initThrottle ⟨none, none⟩ 0))).tracked
      = (step Event.submit (initThrottle ⟨none, none⟩ 0)).tracked :=
  ⟨(sync_throw_bookkeeping Nat Nat (step Event.submit (initThrottle ⟨none, none⟩ 0)) 0
      (by decide)).2.2.1,
   (sync_throw_bookkeeping Nat Nat (step Event.submit (initThrottle ⟨none, none⟩ 0)) 0
      (by decide)).2.2.2.1⟩

/-- C7: every admission pass ends with the timer reconciliation; for every
state the reconciled timer is armed iff ready work exists, the QPS limit is
saturated and the outstanding limit is not (so at the end of a pass the armed
timer state matches exactly that condition on the resulting state); when the
condition fails any pending timer is cancelled; when it holds and a timer is
already pending it is left untouched (no re-arm, and `Option` holds at most
one pending timer); and when it holds with no pending timer, the pass arms
the timer to fire after the remaining delay of the oldest tracked item, the
tracked zone being nonempty then. -/
theorem reconcile_timer (opts : AsyncThrottleOptions) (s : ThrottleState)
    (h : Reachable opts s) :
    processWork s = updateTimer (executeReadyWork (purgeExpiredWork s)) ∧
    (∀ s2 : ThrottleState, (updateTimer s2).expiringWorkTimer.isSome = true ↔
      (s2.queued ≠ [] ∧ s2.maxQps ≤ s2.qpsCount ∧
        s2.outstandingCount < s2.maxOutstanding)) ∧
    (∀ s2 : ThrottleState,
      ¬(s2.queued ≠ [] ∧ s2.maxQps ≤ s2.qpsCount ∧
        s2.outstandingCount < s2.maxOutstanding) →
      (updateTimer s2).expiringWorkTimer = none) ∧
    (∀ s2 : ThrottleState, ∀ f : Nat, s2.expiringWorkTimer = some f →
      (s2.queued ≠ [] ∧ s2.maxQps ≤ s2.qpsCount ∧
        s2.outstandingCount < s2.maxOutstanding) →
      (updateTimer s2).expiringWorkTimer = some f) ∧
    ((executeReadyWork (purgeExpiredWork s)).expiringWorkTimer = none →
      ((executeReadyWork (purgeExpiredWork s)).queued ≠ [] ∧
        (executeReadyWork (purgeExpiredWork s)).maxQps
          ≤ (executeReadyWork (purgeExpiredWork s)).qpsCount ∧
        (executeReadyWork (purgeExpiredWork s)).outstandingCount
          < (executeReadyWork (purgeExpiredWork s)).maxOutstanding) →
      (executeReadyWork (purgeExpiredWork s)).tracked ≠ [] ∧
      (processWork s).expiringWorkTimer
        = some ((executeReadyWork (purgeExpiredWork s)).now
            + firstExpirationDelay (executeReadyWork (purgeExpiredWork s)))) := by
  refine ⟨rfl, ?_, ?_, ?_, ?_⟩
  · intro s2
    unfold updateTimer
    by_cases hc : s2.queued ≠ [] ∧ s2.maxQps ≤ s2.qpsCount ∧
        s2.outstandingCount < s2.maxOutstanding
    · rw [if_pos hc]
      refine iff_of_true ?_ hc
      cases ht : s2.expiringWorkTimer with
      | some f =>
        show s2.expiringWorkTimer.isSome = true
        rw [ht]
        rfl
      | none => rfl
    · rw [if_neg hc]
      exact iff_of_false (fun hcon => Bool.false_ne_true hcon) hc
  · intro s2 hnc
    unfold updateTimer
    rw [if_neg hnc]
  · intro s2 f hf hc
    unfold updateTimer
    rw [if_pos hc, hf]
    exact hf
  · intro hnone hcond
    have hsp : Inv (executeReadyWork (purgeExpiredWork s)) :=
      inv_executeReadyWork _ (inv_purgeExpiredWork s (reachable_inv h))
    have hmaxqps : (executeReadyWork (purgeExpiredWork s)).maxQps = s.maxQps :=
      (executeReadyWorkAux_const (purgeExpiredWork s).queued (purgeExpiredWork s)).2.1
    have hqpos : 1 ≤ (executeReadyWork (purgeExpiredWork s)).maxQps := by
      rw [hmaxqps, (reachable_limits h).2]
      exact limitOrDefault_pos _
    have htne : (executeReadyWork (purgeExpiredWork s)).tracked ≠ [] := by
      have h1 := hsp.qps_eq
      have h2 := hcond.2.1
      intro hnil
      rw [hnil] at h1
      simp at h1
      omega
    refine ⟨htne, ?_⟩
    show (updateTimer (executeReadyWork (purgeExpiredWork s))).expiringWorkTimer = _
    unfold updateTimer
    rw [if_pos hcond, hnone]

/-- C7 witness. -/
theorem reconcile_timer_witness :
    processWork (step Event.submit (initThrottle ⟨none, some 1⟩ 0))
      = updateTimer (executeReadyWork (purgeExpiredWork
          (step Event.submit (initThrottle ⟨none, some 1⟩ 0)))) :=
  (reconcile_timer ⟨none, some 1⟩ _ (Reachable.step Event.submit _ (Reachable.init 0))).1

/-- C8 witness. -/
theorem callAllThrottled_spec_witness :
    (callAllThrottled 2 (([1, 0] : List Nat).map
        fun k => ((k, POutcome.ok k) : Nat × POutcome Nat Nat))).settlements
      = [POutcome.ok ((List.range 2).map fun k => some k)] ∧
    (callAllThrottled 1 (([0] : List Nat).map
        fun k => ((k, POutcome.err 7) : Nat × POutcome Nat Nat))).settlements
      = [POutcome.err 7] :=
  ⟨(callAllThrottled_spec Nat Nat 2 [1, 0] (fun k => POutcome.ok k)
      (by decide) (by decide)).1 (fun k => k) (fun i hi => rfl),
   (callAllThrottled_spec Nat Nat 1 [0] (fun k => POutcome.err 7)
      (by decide) (by decide)).2 [] 0 7 [] rfl
      (fun p hp => absurd hp (List.not_mem_nil p))⟩

/-- C9 (amended): at the moment the drain signal fires, no item is queued and
no item is started-but-incomplete; items started within the preceding 1000ms
may however still be linked in the QPS-tracked list (the glossary's stronger
quiescence — no tracked item at all — does not hold at drain resolution, see
the counterexample). -/
theorem drain_resolution_state (opts : AsyncThrottleOptions) (s : ThrottleState)
    (h : Reachable opts s) (e : Event)
    (hf : (step e s).drainFired = true) :
    (step e s).queued = [] ∧ (step e s).outstanding = [] := by
  obtain ⟨id, rfl, hid, h1, h2⟩ := (drainFired_step_iff s e).mp hf
  have hs := reachable_inv h
  have hoc : s.outstanding.length = 1 := by
    have heq := hs.out_eq
    have hpos : 0 < s.outstanding.length :=
      List.length_pos.mpr (List.ne_nil_of_mem hid)
    omega
  have herase : s.outstanding.erase id = [] := by
    have hlen := List.length_erase_of_mem hid
    rw [hoc] at hlen
    exact List.length_eq_zero.mp (by omega)
  show (workCleanup id { s with drainFired := false }).queued = [] ∧
    (workCleanup id { s with drainFired := false }).outstanding = []
  unfold workCleanup
  split
  · split
    · have hpe := processWork_empty (cleanupState id { s with drainFired := false }) h2
      refine ⟨hpe.1, ?_⟩
      rw [hpe.2]
      exact herase
    · exact ⟨h2, herase⟩
  · next hmem => exact absurd hid hmem

/-- C9 witness. -/
theorem drain_resolution_state_witness :
    (step (Event.complete 0) (step Event.submit
      (initThrottle ⟨none, none⟩ 0))).queued = [] ∧
    (step (Event.complete 0) (step Event.submit
      (initThrottle ⟨none, none⟩ 0))).outstanding = [] :=
  drain_resolution_state ⟨none, none⟩ _
    (Reachable.step Event.submit _ (Reachable.init 0)) (Event.complete 0) (by decide)

end AsyncThrottleModel
